import Mathlib

/-
  Verification of the trend feature-engineering module
  (quantreo/features_engineering/trend).

  The module computes four indicators over one numeric column of a
  DataFrame: a simple moving average, Kaufman's adaptive moving average,
  a rolling least-squares slope, and rolling slope plus R squared.

  Floating-point values are modelled exactly: a value is either a finite
  rational, NaN (which also stands for a missing value in pandas), or a
  signed infinity.  Arithmetic follows IEEE-754 semantics on this domain
  (NaN propagates; 0 * inf = NaN; x / 0 is NaN for x = 0 and a signed
  infinity otherwise; inf - inf = NaN; inf / inf = NaN).
-/

inductive FV where
  | fin : ℚ → FV
  | nan : FV
  | pinf : FV
  | ninf : FV
deriving DecidableEq, Repr

namespace FV

def neg : FV → FV
  | .fin a => .fin (-a)
  | .nan => .nan
  | .pinf => .ninf
  | .ninf => .pinf

def add : FV → FV → FV
  | .nan, _ => .nan
  | _, .nan => .nan
  | .fin a, .fin b => .fin (a + b)
  | .fin _, .pinf => .pinf
  | .fin _, .ninf => .ninf
  | .pinf, .fin _ => .pinf
  | .ninf, .fin _ => .ninf
  | .pinf, .pinf => .pinf
  | .ninf, .ninf => .ninf
  | .pinf, .ninf => .nan
  | .ninf, .pinf => .nan

def sub (a b : FV) : FV := add a (neg b)

def mul : FV → FV → FV
  | .nan, _ => .nan
  | _, .nan => .nan
  | .fin a, .fin b => .fin (a * b)
  | .fin a, .pinf => if a = 0 then .nan else if 0 < a then .pinf else .ninf
  | .fin a, .ninf => if a = 0 then .nan else if 0 < a then .ninf else .pinf
  | .pinf, .fin b => if b = 0 then .nan else if 0 < b then .pinf else .ninf
  | .ninf, .fin b => if b = 0 then .nan else if 0 < b then .ninf else .pinf
  | .pinf, .pinf => .pinf
  | .pinf, .ninf => .ninf
  | .ninf, .pinf => .ninf
  | .ninf, .ninf => .pinf

def div : FV → FV → FV
  | .nan, _ => .nan
  | _, .nan => .nan
  | .fin a, .fin b =>
      if b = 0 then (if a = 0 then .nan else if 0 < a then .pinf else .ninf)
      else .fin (a / b)
  | .fin _, .pinf => .fin 0
  | .fin _, .ninf => .fin 0
  | .pinf, .fin b => if b < 0 then .ninf else .pinf
  | .ninf, .fin b => if b < 0 then .pinf else .ninf
  | .pinf, .pinf => .nan
  | .pinf, .ninf => .nan
  | .ninf, .pinf => .nan
  | .ninf, .ninf => .nan

def abs : FV → FV
  | .fin a => .fin |a|
  | .nan => .nan
  | .pinf => .pinf
  | .ninf => .pinf

def isFin : FV → Bool
  | .fin _ => true
  | _ => false

end FV

/-
  Data model.  A DataFrame is an ordered row index together with named
  columns; a Series is an aligned named column.  Errors raised by the
  Python code are values of PyErr: valueError models the module's own
  explicit raise on a missing column (sma, kama), keyError models the
  KeyError pandas raises from the bare column lookup in linear_slope and
  linear_slope_and_r2.  Both carry the requested column name.
-/

inductive PyErr where
  | valueError : String → PyErr
  | keyError : String → PyErr
deriving DecidableEq, Repr

structure DataFrame where
  idx : List Int
  cols : List (String × List FV)
deriving DecidableEq, Repr

def DataFrame.lookup (df : DataFrame) (c : String) : Option (List FV) :=
  (df.cols.find? (fun p => p.1 == c)).map Prod.snd

structure Series where
  idx : List Int
  name : String
  data : List FV
deriving DecidableEq, Repr

/-- Sum of a list of values, folding IEEE addition from zero; models
np.sum and the pandas rolling sum of a full window. -/
def sumFV (l : List FV) : FV := l.foldl FV.add (.fin 0)

/-- Element of a series at a position; out-of-range reads yield NaN,
which only occurs in shifted views. -/
def getF (xs : List FV) (i : ℕ) : FV := xs.getD i .nan

/-- Series.shift(k): position i reads position i-k, NaN for i < k. -/
def shiftF (xs : List FV) (k i : ℕ) : FV :=
  if i < k then .nan else getF xs (i - k)

/-
  Simple moving average: df[col].rolling(window=w).mean().
  With the default min_periods (= the window size) a position with a
  full window of non-NaN values holds the mean of that window, every
  other position holds NaN.
-/

def rollingMeanVals (xs : List FV) (w : ℕ) : List FV :=
  (List.range xs.length).map (fun i =>
    if i + 1 < w then .nan
    else
      let win := (xs.drop (i + 1 - w)).take w
      if FV.nan ∈ win then .nan
      else FV.div (sumFV win) (.fin ((win.length : ℚ))))

def sma (df : DataFrame) (col : String) (window_size : ℕ) : Except PyErr Series :=
  match df.lookup col with
  | none => .error (.valueError col)
  | some xs => .ok ⟨df.idx, "sma_" ++ toString window_size, rollingMeanVals xs window_size⟩

/-
  KAMA pipeline, following the source line by line:
    vol       = |close - close.shift(1)|
    er_num    = |close - close.shift(l1)|
    er_den    = vol.rolling(window=l1, min_periods=l1).sum()
    er        = (er_num / er_den).fillna(0)
    sc        = (er * (2/(l2+1) - 2/(l3+1)) + 2/(l3+1)) ** 2
  then the sequential fold with the first_value flag.
-/

def volF (xs : List FV) (i : ℕ) : FV :=
  FV.abs (FV.sub (getF xs i) (shiftF xs 1 i))

def erNum (xs : List FV) (l1 i : ℕ) : FV :=
  FV.abs (FV.sub (getF xs i) (shiftF xs l1 i))

def erDenWindow (xs : List FV) (l1 i : ℕ) : List FV :=
  (List.range l1).map (fun j => volF xs (i + 1 - l1 + j))

def erDen (xs : List FV) (l1 i : ℕ) : FV :=
  if i + 1 < l1 then .nan
  else if FV.nan ∈ erDenWindow xs l1 i then .nan
  else sumFV (erDenWindow xs l1 i)

def fillna0 : FV → FV
  | .nan => .fin 0
  | v => v

def effRatio (xs : List FV) (l1 i : ℕ) : FV :=
  fillna0 (FV.div (erNum xs l1 i) (erDen xs l1 i))

def scF (xs : List FV) (l1 l2 l3 i : ℕ) : FV :=
  FV.mul
    (FV.add (FV.mul (effRatio xs l1 i) (.fin (2 / ((l2 : ℚ) + 1) - 2 / ((l3 : ℚ) + 1))))
      (.fin (2 / ((l3 : ℚ) + 1))))
    (FV.add (FV.mul (effRatio xs l1 i) (.fin (2 / ((l2 : ℚ) + 1) - 2 / ((l3 : ℚ) + 1))))
      (.fin (2 / ((l3 : ℚ) + 1))))

/-- One iteration of the kama loop.  The state is the previously written
array slot and the first_value flag. -/
def kamaStep (x sc : FV) (st : FV × Bool) : FV × Bool :=
  if sc = .nan then (.nan, st.2)
  else if st.2 then (x, false)
  else (FV.add st.1 (FV.mul sc (FV.sub x st.1)), false)

def kamaState (xs : List FV) (l1 l2 l3 : ℕ) : ℕ → FV × Bool
  | 0 => kamaStep (getF xs 0) (scF xs l1 l2 l3 0) (.nan, true)
  | i + 1 => kamaStep (getF xs (i + 1)) (scF xs l1 l2 l3 (i + 1)) (kamaState xs l1 l2 l3 i)

def kamaVals (xs : List FV) (l1 l2 l3 : ℕ) : List FV :=
  (List.range xs.length).map (fun i => (kamaState xs l1 l2 l3 i).1)

def kama (df : DataFrame) (col : String) (l1 l2 l3 : ℕ) : Except PyErr Series :=
  match df.lookup col with
  | none => .error (.valueError col)
  | some xs => .ok ⟨df.idx, "kama", kamaVals xs l1 l2 l3⟩

/-
  Least-squares regression over a window against the synthetic index
  x = 0 .. n-1, mirroring _get_linear_regression_slope and
  _get_linear_regression_slope_and_r2.  The integer sums over x are
  exact rationals; sums involving the data use IEEE arithmetic.
-/

def sumX (n : ℕ) : ℚ := ((List.range n).map (fun k : ℕ => (k : ℚ))).sum

def sumX2 (n : ℕ) : ℚ := ((List.range n).map (fun k : ℕ => (k : ℚ) * (k : ℚ))).sum

/-- Least-squares denominator n * sum_x2 - sum_x ** 2 for a window of
length n, as computed by both regression helpers. -/
def lsDen (n : ℕ) : ℚ := n * sumX2 n - (sumX n) ^ 2

/-- Sum of x * y, the elementwise product of the synthetic index with
the window values (np.sum(x * y)). -/
def sumXY (ys : List FV) : FV :=
  sumFV (List.zipWith FV.mul ((List.range ys.length).map (fun k : ℕ => FV.fin (k : ℚ))) ys)

def lrNum (ys : List FV) : FV :=
  FV.sub (FV.mul (.fin ((ys.length : ℚ))) (sumXY ys))
    (FV.mul (.fin (sumX ys.length)) (sumFV ys))

def lrSlope (ys : List FV) : FV :=
  FV.div (lrNum ys) (.fin (lsDen ys.length))

def meanF (ys : List FV) : FV := FV.div (sumFV ys) (.fin ((ys.length : ℚ)))

/-- Total sum of squares SST = sum((y - mean y)^2). -/
def SSTof (ys : List FV) : FV :=
  sumFV (ys.map (fun v => FV.mul (FV.sub v (meanF ys)) (FV.sub v (meanF ys))))

def interceptOf (ys : List FV) : FV :=
  FV.div (FV.sub (sumFV ys) (FV.mul (lrSlope ys) (.fin (sumX ys.length))))
    (.fin ((ys.length : ℚ)))

def yPred (ys : List FV) : List FV :=
  (List.range ys.length).map (fun k : ℕ =>
    FV.add (interceptOf ys) (FV.mul (lrSlope ys) (.fin (k : ℚ))))

/-- Residual sum of squares SSR = sum((y - y_pred)^2). -/
def SSRof (ys : List FV) : FV :=
  sumFV ((List.zipWith FV.sub ys (yPred ys)).map (fun v => FV.mul v v))

def lrSlopeR2 (ys : List FV) : FV × FV :=
  (lrSlope ys, FV.sub (.fin 1) (FV.div (SSRof ys) (SSTof ys)))

/-
  linear_slope: df[col].rolling(window_size).apply(slope, raw=True).
  rolling.apply with the default min_periods only invokes the function
  on a full window of non-NaN values; other positions are NaN.
-/

def linearSlopeVals (xs : List FV) (w : ℕ) : List FV :=
  (List.range xs.length).map (fun i =>
    if i + 1 < w then .nan
    else
      let win := (xs.drop (i + 1 - w)).take w
      if FV.nan ∈ win then .nan
      else lrSlope win)

def linear_slope (df : DataFrame) (col : String) (window_size : ℕ) : Except PyErr Series :=
  match df.lookup col with
  | none => .error (.keyError col)
  | some xs => .ok ⟨df.idx, "linear_slope_" ++ toString window_size, linearSlopeVals xs window_size⟩

/-
  linear_slope_and_r2 fills two arrays in an explicit loop over the
  window-ending positions; the raw window slice (NaN included) is handed
  to the njit helper.
-/

def linearSlopeR2Slopes (xs : List FV) (w : ℕ) : List FV :=
  (List.range xs.length).map (fun i =>
    if i + 1 < w then .nan
    else (lrSlopeR2 ((xs.drop (i + 1 - w)).take w)).1)

def linearSlopeR2R2s (xs : List FV) (w : ℕ) : List FV :=
  (List.range xs.length).map (fun i =>
    if i + 1 < w then .nan
    else (lrSlopeR2 ((xs.drop (i + 1 - w)).take w)).2)

def linear_slope_and_r2 (df : DataFrame) (col : String) (window_size : ℕ) :
    Except PyErr DataFrame :=
  match df.lookup col with
  | none => .error (.keyError col)
  | some xs =>
      .ok ⟨df.idx,
        [("linear_slope_" ++ toString window_size, linearSlopeR2Slopes xs window_size),
         ("linear_r2_" ++ toString window_size, linearSlopeR2R2s xs window_size)]⟩

/-- Perfectly linear series value i = a * i + b, used to state the
linear-input claims. -/
def linSeries (a b : ℚ) (n : ℕ) : List FV :=
  (List.range n).map (fun k : ℕ => FV.fin (a * k + b))

namespace FV

@[simp] theorem add_fin (a b : ℚ) : add (.fin a) (.fin b) = .fin (a + b) := rfl

@[simp] theorem mul_fin (a b : ℚ) : mul (.fin a) (.fin b) = .fin (a * b) := rfl

@[simp] theorem neg_fin (a : ℚ) : neg (.fin a) = .fin (-a) := rfl

@[simp] theorem sub_fin (a b : ℚ) : sub (.fin a) (.fin b) = .fin (a - b) := by
  simp [sub, sub_eq_add_neg]

@[simp] theorem abs_fin (a : ℚ) : abs (.fin a) = .fin |a| := rfl

@[simp] theorem nan_add (a : FV) : add .nan a = .nan := by cases a <;> rfl

@[simp] theorem add_nan (a : FV) : add a .nan = .nan := by cases a <;> rfl

@[simp] theorem nan_mul (a : FV) : mul .nan a = .nan := by cases a <;> rfl

@[simp] theorem mul_nan (a : FV) : mul a .nan = .nan := by cases a <;> rfl

@[simp] theorem nan_sub (a : FV) : sub .nan a = .nan := by cases a <;> rfl

@[simp] theorem sub_nan (a : FV) : sub a .nan = .nan := by cases a <;> rfl

@[simp] theorem nan_div (a : FV) : div .nan a = .nan := by cases a <;> rfl

@[simp] theorem div_nan (a : FV) : div a .nan = .nan := by cases a <;> rfl

@[simp] theorem abs_nan : abs .nan = .nan := rfl

theorem div_fin_of_ne (a b : ℚ) (hb : b ≠ 0) : div (.fin a) (.fin b) = .fin (a / b) := by
  simp [div, hb]

@[simp] theorem div_zero_zero : div (.fin 0) (.fin 0) = .nan := by
  simp [div]

theorem add_eq_fin {a b : FV} {q : ℚ} (h : add a b = .fin q) :
    ∃ qa qb, a = .fin qa ∧ b = .fin qb ∧ qa + qb = q := by
  cases a <;> cases b <;> simp_all [add]

theorem sub_eq_fin {a b : FV} {q : ℚ} (h : sub a b = .fin q) :
    ∃ qa qb, a = .fin qa ∧ b = .fin qb ∧ qa - qb = q := by
  cases a <;> cases b <;> simp_all [sub, add, neg, sub_eq_add_neg]

theorem abs_eq_fin {a : FV} {q : ℚ} (h : abs a = .fin q) : ∃ qa, a = .fin qa ∧ |qa| = q := by
  cases a <;> simp_all [abs]

theorem abs_sub_eq_fin {a b : FV} {q : ℚ} (h : abs (sub a b) = .fin q) :
    ∃ qa qb, a = .fin qa ∧ b = .fin qb ∧ |qa - qb| = q := by
  obtain ⟨c, hc, hq⟩ := abs_eq_fin h
  obtain ⟨qa, qb, ha, hb, hab⟩ := sub_eq_fin hc
  exact ⟨qa, qb, ha, hb, by rw [hab, hq]⟩

theorem abs_cases_fv (v : FV) :
    abs v = .nan ∨ abs v = .pinf ∨ ∃ q, 0 ≤ q ∧ abs v = .fin q := by
  cases v with
  | fin a => exact Or.inr (Or.inr ⟨|a|, abs_nonneg a, rfl⟩)
  | nan => exact Or.inl rfl
  | pinf => exact Or.inr (Or.inl rfl)
  | ninf => exact Or.inr (Or.inl rfl)

theorem div_pinf_cases (a : FV) : div a .pinf = .nan ∨ div a .pinf = .fin 0 := by
  cases a <;> simp [div]

theorem div_ninf_cases (a : FV) : div a .ninf = .nan ∨ div a .ninf = .fin 0 := by
  cases a <;> simp [div]

end FV

theorem foldl_add_nan (l : List FV) : l.foldl FV.add .nan = .nan := by
  induction l with
  | nil => rfl
  | cons v t ih => simpa using ih

theorem foldl_add_pinf (l : List FV) (h : ∀ v ∈ l, v ≠ .nan ∧ v ≠ .ninf) :
    l.foldl FV.add .pinf = .pinf := by
  induction l with
  | nil => rfl
  | cons v t ih =>
      obtain ⟨hn, hni⟩ := h v (List.mem_cons_self v t)
      have hstep : FV.add .pinf v = .pinf := by
        cases v <;> simp_all [FV.add]
      simp only [List.foldl_cons, hstep]
      exact ih (fun w hw => h w (List.mem_cons_of_mem v hw))

theorem sumFV_nil : sumFV [] = .fin 0 := rfl

theorem sumFV_append_single (l : List FV) (v : FV) :
    sumFV (l ++ [v]) = FV.add (sumFV l) v := by
  simp [sumFV, List.foldl_append]

theorem foldl_add_fin_map (g : ℕ → ℚ) (l : List ℕ) :
    ∀ c : ℚ, List.foldl FV.add (.fin c) (l.map fun x => FV.fin (g x)) =
      .fin (c + (l.map g).sum) := by
  induction l with
  | nil => intro c; simp
  | cons x t ih =>
      intro c
      simp only [List.map_cons, List.foldl_cons, FV.add_fin, List.sum_cons]
      rw [ih]
      ring_nf

theorem sumFV_map_fin (g : ℕ → ℚ) (l : List ℕ) :
    sumFV (l.map fun x => FV.fin (g x)) = .fin ((l.map g).sum) := by
  simpa using foldl_add_fin_map g l 0

theorem getF_map_range (f : ℕ → FV) {n i : ℕ} (h : i < n) :
    getF ((List.range n).map f) i = f i := by
  simp [getF, List.getD_eq_getElem?_getD, List.getElem?_map, List.getElem?_range h]

theorem getF_lt {xs : List FV} {i : ℕ} (h : i < xs.length) : getF xs i = xs.get ⟨i, h⟩ := by
  simp [getF, List.getD_eq_getElem?_getD, List.getElem?_eq_getElem h]

/-
  Telescoping bound for the rolling volatility sum: when the sum of the
  one-step absolute differences over positions s .. s+L-1 is a finite
  value b, the endpoints of the covered stretch are finite and their
  absolute difference is at most b (triangle inequality along the
  window), and b is nonnegative.
-/
theorem vol_window_sum_fin (xs : List FV) (s : ℕ) :
    ∀ (L : ℕ) (b : ℚ),
      sumFV ((List.range L).map fun j => volF xs (s + j)) = .fin b →
      0 ≤ b ∧ (1 ≤ L → 1 ≤ s ∧ ∃ qa qb, getF xs (s - 1) = .fin qa ∧
        getF xs (s + L - 1) = .fin qb ∧ |qb - qa| ≤ b) := by
  intro L
  induction L with
  | zero =>
      intro b h
      simp only [List.range_zero, List.map_nil, sumFV_nil] at h
      obtain rfl : (0 : ℚ) = b := by simpa using h
      exact ⟨le_refl 0, by omega⟩
  | succ L ih =>
      intro b h
      rw [List.range_succ, List.map_append, List.map_cons, List.map_nil,
        sumFV_append_single] at h
      obtain ⟨bS, bV, hS, hV, hsum⟩ := FV.add_eq_fin h
      -- decompose the last volatility term
      have hV2 : FV.abs (FV.sub (getF xs (s + L)) (shiftF xs 1 (s + L))) = .fin bV := hV
      obtain ⟨qe, qd0, hqe, hqd0, habs⟩ := FV.abs_sub_eq_fin hV2
      have hsl : ¬ s + L < 1 := by
        by_contra hc
        rw [shiftF, if_pos hc] at hqd0
        exact FV.noConfusion hqd0
      rw [shiftF, if_neg hsl] at hqd0
      have hbV : 0 ≤ bV := by rw [← habs]; exact abs_nonneg _
      obtain ⟨hbS, hrest⟩ := ih bS hS
      rcases Nat.eq_zero_or_pos L with hL0 | hLpos
      · subst hL0
        -- the window is the single difference between positions s-1 and s
        obtain rfl : (0 : ℚ) = bS := by
          simp only [List.range_zero, List.map_nil, sumFV_nil] at hS
          simpa using hS
        have hs1 : 1 ≤ s := by omega
        refine ⟨by linarith, fun _ => ⟨hs1, qd0, qe, ?_, ?_, ?_⟩⟩
        · simpa using hqd0
        · simpa using hqe
        · rw [habs]; linarith
      · obtain ⟨hs1, qa, qb, hqa, hqb, hle⟩ := hrest hLpos
        have hsame : qb = qd0 := by
          have hq2 : getF xs (s + L - 1) = FV.fin qb := hqb
          exact FV.fin.inj (hq2.symm.trans hqd0)
        refine ⟨by linarith, fun _ => ⟨hs1, qa, qe, hqa, ?_, ?_⟩⟩
        · have heq : s + (L + 1) - 1 = s + L := by omega
          rw [heq]; exact hqe
        · calc |qe - qa| ≤ |qe - qb| + |qb - qa| := abs_sub_le qe qb qa
            _ ≤ bV + bS := by
                rw [hsame] at hle
                rw [hsame, habs]
                exact add_le_add (le_refl _) hle
            _ = b := by linarith

/-- When the rolling efficiency-ratio denominator is finite, the series
is finite at positions i-l1 and i and the numerator is bounded by the
denominator. -/
theorem erDen_fin {xs : List FV} {l1 i : ℕ} {b : ℚ} (h1 : 1 ≤ l1)
    (h : erDen xs l1 i = .fin b) :
    0 ≤ b ∧ l1 ≤ i ∧ ∃ qa qb, getF xs (i - l1) = .fin qa ∧
      getF xs i = .fin qb ∧ |qb - qa| ≤ b := by
  unfold erDen at h
  by_cases hc1 : i + 1 < l1
  · rw [if_pos hc1] at h; exact absurd h (by simp)
  rw [if_neg hc1] at h
  by_cases hc2 : FV.nan ∈ erDenWindow xs l1 i
  · rw [if_pos hc2] at h; exact absurd h (by simp)
  rw [if_neg hc2] at h
  obtain ⟨hb, hrest⟩ := vol_window_sum_fin xs (i + 1 - l1) l1 b h
  obtain ⟨hs1, qa, qb, hqa, hqb, hle⟩ := hrest h1
  have hil : l1 ≤ i := by omega
  have e1 : i + 1 - l1 - 1 = i - l1 := by omega
  have e2 : i + 1 - l1 + l1 - 1 = i := by omega
  rw [e1] at hqa
  rw [e2] at hqb
  exact ⟨hb, hil, qa, qb, hqa, hqb, hle⟩

/-- The efficiency ratio after fillna(0) is always a finite value in
the closed interval from 0 to 1, for every input series. -/
theorem effRatio_unit (xs : List FV) (l1 i : ℕ) (h1 : 1 ≤ l1) :
    ∃ q, effRatio xs l1 i = .fin q ∧ 0 ≤ q ∧ q ≤ 1 := by
  unfold effRatio
  cases hD : erDen xs l1 i with
  | nan => exact ⟨0, by simp [fillna0], le_refl 0, by norm_num⟩
  | pinf =>
      rcases FV.div_pinf_cases (erNum xs l1 i) with h | h <;>
        exact ⟨0, by rw [h]; rfl, le_refl 0, by norm_num⟩
  | ninf =>
      rcases FV.div_ninf_cases (erNum xs l1 i) with h | h <;>
        exact ⟨0, by rw [h]; rfl, le_refl 0, by norm_num⟩
  | fin b =>
      obtain ⟨hb, hil, qa, qb, hqa, hqb, hle⟩ := erDen_fin h1 hD
      have hnum : erNum xs l1 i = .fin |qb - qa| := by
        unfold erNum
        rw [shiftF, if_neg (by omega : ¬ i < l1), hqa, hqb]
        simp
      rw [hnum]
      rcases eq_or_lt_of_le hb with hb0 | hbpos
      · have hq0 : |qb - qa| = 0 := le_antisymm (by rw [hb0]; exact hle) (abs_nonneg _)
        rw [hq0]
        rw [← hb0]
        exact ⟨0, by simp [fillna0], le_refl 0, by norm_num⟩
      · rw [FV.div_fin_of_ne _ _ (ne_of_gt hbpos)]
        exact ⟨|qb - qa| / b, rfl, div_nonneg (abs_nonneg _) (le_of_lt hbpos),
          (div_le_one hbpos).mpr hle⟩

/-- The smoothing constant is always a finite square of an affine image
of the efficiency ratio; in particular it is never NaN, so the isnan
branch of the kama loop is unreachable. -/
theorem scF_eval (xs : List FV) (l1 l2 l3 i : ℕ) (h1 : 1 ≤ l1) :
    ∃ q, effRatio xs l1 i = .fin q ∧ 0 ≤ q ∧ q ≤ 1 ∧
      scF xs l1 l2 l3 i =
        .fin ((q * (2 / ((l2 : ℚ) + 1) - 2 / ((l3 : ℚ) + 1)) + 2 / ((l3 : ℚ) + 1)) *
              (q * (2 / ((l2 : ℚ) + 1) - 2 / ((l3 : ℚ) + 1)) + 2 / ((l3 : ℚ) + 1))) := by
  obtain ⟨q, hq, hq0, hq1⟩ := effRatio_unit xs l1 i h1
  exact ⟨q, hq, hq0, hq1, by rw [scF, hq]; simp⟩

theorem scF_ne_nan (xs : List FV) (l1 l2 l3 i : ℕ) (h1 : 1 ≤ l1) :
    scF xs l1 l2 l3 i ≠ .nan := by
  obtain ⟨q, _, _, _, hsc⟩ := scF_eval xs l1 l2 l3 i h1
  rw [hsc]
  exact fun hc => FV.noConfusion hc

theorem kamaState_snd (xs : List FV) (l1 l2 l3 : ℕ) (h1 : 1 ≤ l1) :
    ∀ i, (kamaState xs l1 l2 l3 i).2 = false := by
  intro i
  induction i with
  | zero =>
      simp only [kamaState, kamaStep]
      rw [if_neg (scF_ne_nan xs l1 l2 l3 0 h1)]
      simp
  | succ i ih =>
      simp only [kamaState, kamaStep]
      rw [if_neg (scF_ne_nan xs l1 l2 l3 (i + 1) h1)]
      simp [ih]

theorem kamaState_zero_fst (xs : List FV) (l1 l2 l3 : ℕ) (h1 : 1 ≤ l1) :
    (kamaState xs l1 l2 l3 0).1 = getF xs 0 := by
  simp only [kamaState, kamaStep]
  rw [if_neg (scF_ne_nan xs l1 l2 l3 0 h1)]
  simp

theorem kamaState_succ_fst (xs : List FV) (l1 l2 l3 : ℕ) (h1 : 1 ≤ l1) (i : ℕ) :
    (kamaState xs l1 l2 l3 (i + 1)).1 =
      FV.add (kamaState xs l1 l2 l3 i).1
        (FV.mul (scF xs l1 l2 l3 (i + 1))
          (FV.sub (getF xs (i + 1)) (kamaState xs l1 l2 l3 i).1)) := by
  simp only [kamaState, kamaStep]
  rw [if_neg (scF_ne_nan xs l1 l2 l3 (i + 1) h1), kamaState_snd xs l1 l2 l3 h1 i]
  simp

theorem list_sum_range (f : ℕ → ℚ) (n : ℕ) :
    ((List.range n).map f).sum = ∑ k in Finset.range n, f k := by
  induction n with
  | zero => simp
  | succ n ih =>
      rw [List.range_succ, List.map_append, List.sum_append, Finset.sum_range_succ, ih]
      simp

theorem zipWith_map_same {α β γ δ : Type} (l : List α) (f : α → β) (g : α → γ)
    (h : β → γ → δ) :
    List.zipWith h (l.map f) (l.map g) = l.map fun x => h (f x) (g x) := by
  induction l with
  | nil => rfl
  | cons a t ih => simp [ih]

theorem sumX_closed (n : ℕ) : sumX n = n * (n - 1) / 2 := by
  induction n with
  | zero => simp [sumX]
  | succ n ih =>
      rw [sumX, List.range_succ, List.map_append, List.sum_append]
      rw [sumX] at ih
      rw [ih]
      simp only [List.map_cons, List.map_nil, List.sum_cons, List.sum_nil, add_zero]
      push_cast
      ring

theorem sumX2_closed (n : ℕ) : sumX2 n = n * (n - 1) * (2 * n - 1) / 6 := by
  induction n with
  | zero => simp [sumX2]
  | succ n ih =>
      rw [sumX2, List.range_succ, List.map_append, List.sum_append]
      rw [sumX2] at ih
      rw [ih]
      simp only [List.map_cons, List.map_nil, List.sum_cons, List.sum_nil, add_zero]
      push_cast
      ring

theorem lsDen_closed (n : ℕ) : lsDen n = (n : ℚ) ^ 2 * ((n : ℚ) ^ 2 - 1) / 12 := by
  rw [lsDen, sumX_closed, sumX2_closed]
  ring

theorem lsDen_pos {n : ℕ} (h : 2 ≤ n) : 0 < lsDen n := by
  rw [lsDen_closed]
  have h2 : (2 : ℚ) ≤ (n : ℚ) := by exact_mod_cast h
  have hnum : 0 < (n : ℚ) ^ 2 * ((n : ℚ) ^ 2 - 1) := by
    have hfac : (n : ℚ) ^ 2 - 1 = ((n : ℚ) - 1) * ((n : ℚ) + 1) := by ring
    rw [hfac]
    exact mul_pos (pow_pos (by linarith) 2) (mul_pos (by linarith) (by linarith))
  exact div_pos hnum (by norm_num)

theorem lsDen_one : lsDen 1 = 0 := by
  rw [lsDen_closed]
  norm_num

theorem quad_sum (c1 c2 c3 : ℚ) (w : ℕ) :
    (∑ k in Finset.range w, (c1 * ((k : ℚ) * k) + c2 * k + c3)) =
      c1 * sumX2 w + c2 * sumX w + c3 * w := by
  rw [Finset.sum_add_distrib, Finset.sum_add_distrib, ← Finset.mul_sum, ← Finset.mul_sum,
    Finset.sum_const, Finset.card_range, sumX, sumX2, list_sum_range, list_sum_range,
    nsmul_eq_mul]
  ring

theorem sumFV_affine (A a : ℚ) (w : ℕ) :
    sumFV ((List.range w).map fun k : ℕ => FV.fin (A + a * k)) = .fin (w * A + a * sumX w) := by
  rw [sumFV_map_fin (fun k => A + a * k) (List.range w)]
  congr 1
  rw [list_sum_range, Finset.sum_add_distrib, Finset.sum_const, Finset.card_range,
    ← Finset.mul_sum, sumX, list_sum_range, nsmul_eq_mul]

theorem sumXY_affine (A a : ℚ) (w : ℕ) :
    sumXY ((List.range w).map fun k : ℕ => FV.fin (A + a * k)) =
      .fin (A * sumX w + a * sumX2 w) := by
  unfold sumXY
  rw [List.length_map, List.length_range]
  rw [zipWith_map_same (List.range w) (fun k : ℕ => FV.fin (k : ℚ))
    (fun k : ℕ => FV.fin (A + a * k)) FV.mul]
  simp only [FV.mul_fin]
  rw [sumFV_map_fin]
  congr 1
  rw [list_sum_range, sumX, sumX2, list_sum_range, list_sum_range, Finset.mul_sum,
    Finset.mul_sum, ← Finset.sum_add_distrib]
  exact Finset.sum_congr rfl fun k _ => by ring

theorem lrNum_affine (A a : ℚ) (w : ℕ) :
    lrNum ((List.range w).map fun k : ℕ => FV.fin (A + a * k)) = .fin (a * lsDen w) := by
  unfold lrNum
  rw [List.length_map, List.length_range, sumXY_affine, sumFV_affine]
  simp only [FV.mul_fin, FV.sub_fin]
  congr 1
  rw [lsDen]
  ring

theorem lrSlope_affine (A a : ℚ) {w : ℕ} (hw : 2 ≤ w) :
    lrSlope ((List.range w).map fun k : ℕ => FV.fin (A + a * k)) = .fin a := by
  unfold lrSlope
  rw [List.length_map, List.length_range, lrNum_affine,
    FV.div_fin_of_ne _ _ (ne_of_gt (lsDen_pos hw))]
  congr 1
  rw [mul_div_assoc, div_self (ne_of_gt (lsDen_pos hw)), mul_one]

theorem natQ_pos {w : ℕ} (hw : 1 ≤ w) : (0 : ℚ) < (w : ℚ) := by
  exact_mod_cast hw

theorem interceptOf_affine (A a : ℚ) {w : ℕ} (hw : 2 ≤ w) :
    interceptOf ((List.range w).map fun k : ℕ => FV.fin (A + a * k)) = .fin A := by
  unfold interceptOf
  rw [List.length_map, List.length_range, lrSlope_affine A a hw, sumFV_affine]
  simp only [FV.mul_fin, FV.sub_fin]
  have hw0 : (w : ℚ) ≠ 0 := ne_of_gt (natQ_pos (by omega))
  rw [FV.div_fin_of_ne _ _ hw0]
  congr 1
  field_simp

theorem yPred_affine (A a : ℚ) {w : ℕ} (hw : 2 ≤ w) :
    yPred ((List.range w).map fun k : ℕ => FV.fin (A + a * k)) =
      (List.range w).map fun k : ℕ => FV.fin (A + a * k) := by
  unfold yPred
  rw [List.length_map, List.length_range, interceptOf_affine A a hw, lrSlope_affine A a hw]
  simp only [FV.mul_fin, FV.add_fin]

theorem sumFV_zero_map {α : Type} (l : List α) :
    sumFV (l.map fun _ => FV.fin 0) = .fin 0 := by
  induction l with
  | nil => rfl
  | cons x t ih =>
      simp only [List.map_cons, sumFV, List.foldl_cons, FV.add_fin, add_zero] at ih ⊢
      exact ih

theorem SSRof_affine (A a : ℚ) {w : ℕ} (hw : 2 ≤ w) :
    SSRof ((List.range w).map fun k : ℕ => FV.fin (A + a * k)) = .fin 0 := by
  unfold SSRof
  rw [yPred_affine A a hw]
  rw [zipWith_map_same (List.range w) (fun k : ℕ => FV.fin (A + a * k))
    (fun k : ℕ => FV.fin (A + a * k)) FV.sub]
  simp only [FV.sub_fin, sub_self, List.map_map]
  have hfun : (fun v => FV.mul v v) ∘ (fun _ : ℕ => FV.fin 0) = fun _ : ℕ => FV.fin 0 := by
    funext k
    simp
  rw [hfun, sumFV_zero_map]

theorem meanF_affine (A a : ℚ) {w : ℕ} (hw : 1 ≤ w) :
    meanF ((List.range w).map fun k : ℕ => FV.fin (A + a * k)) =
      .fin (A + a * sumX w / w) := by
  unfold meanF
  rw [List.length_map, List.length_range, sumFV_affine]
  have hw0 : (w : ℚ) ≠ 0 := ne_of_gt (natQ_pos hw)
  rw [FV.div_fin_of_ne _ _ hw0]
  congr 1
  field_simp
  ring

theorem SSTof_affine (A a : ℚ) {w : ℕ} (hw : 2 ≤ w) :
    SSTof ((List.range w).map fun k : ℕ => FV.fin (A + a * k)) =
      .fin (a * a * lsDen w / w) := by
  unfold SSTof
  rw [meanF_affine A a (by omega)]
  rw [List.map_map]
  have hw0 : (w : ℚ) ≠ 0 := ne_of_gt (natQ_pos (by omega))
  have hfun : ((fun v => FV.mul (FV.sub v (.fin (A + a * sumX w / w)))
        (FV.sub v (.fin (A + a * sumX w / w)))) ∘ (fun k : ℕ => FV.fin (A + a * k))) =
      fun k : ℕ => FV.fin (a * a * ((k : ℚ) * k) +
        (-(2 * (a * a) * sumX w / w)) * k + a * a * (sumX w / w) * (sumX w / w)) := by
    funext k
    simp only [Function.comp, FV.sub_fin, FV.mul_fin]
    congr 1
    field_simp
    ring
  rw [hfun, sumFV_map_fin, list_sum_range, quad_sum]
  congr 1
  rw [lsDen]
  field_simp
  ring

theorem lrR2_affine (A a : ℚ) {w : ℕ} (hw : 2 ≤ w) (ha : a ≠ 0) :
    (lrSlopeR2 ((List.range w).map fun k : ℕ => FV.fin (A + a * k))).2 = .fin 1 := by
  unfold lrSlopeR2
  rw [SSRof_affine A a hw, SSTof_affine A a hw]
  have hpos : 0 < a * a * lsDen w / w :=
    div_pos (mul_pos (mul_self_pos.mpr ha) (lsDen_pos hw)) (natQ_pos (by omega))
  rw [FV.div_fin_of_ne _ _ (ne_of_gt hpos)]
  simp only [zero_div, FV.sub_fin]
  norm_num


theorem replicate_eq_map_range (c : ℚ) (w : ℕ) :
    List.replicate w (FV.fin c) = (List.range w).map fun k : ℕ => FV.fin (c + 0 * k) := by
  have hfun : (fun k : ℕ => FV.fin (c + 0 * k)) = fun _ : ℕ => FV.fin c := by
    funext k
    norm_num
  rw [hfun, List.map_const', List.length_range]

theorem sumFV_replicate_zero (w : ℕ) : sumFV (List.replicate w (.fin 0)) = .fin 0 := by
  induction w with
  | zero => rfl
  | succ w ih =>
      simp only [List.replicate_succ, sumFV, List.foldl_cons, FV.add_fin, add_zero] at ih ⊢
      exact ih

theorem meanF_const (c : ℚ) {w : ℕ} (hw : 1 ≤ w) :
    meanF (List.replicate w (.fin c)) = .fin c := by
  unfold meanF
  rw [List.length_replicate, replicate_eq_map_range, sumFV_affine,
    FV.div_fin_of_ne _ _ (ne_of_gt (natQ_pos hw))]
  congr 1
  field_simp

theorem SSTof_const (c : ℚ) {w : ℕ} (hw : 1 ≤ w) :
    SSTof (List.replicate w (.fin c)) = .fin 0 := by
  unfold SSTof
  rw [meanF_const c hw, List.map_replicate]
  have hv : FV.mul (FV.sub (.fin c) (.fin c)) (FV.sub (.fin c) (.fin c)) = .fin 0 := by
    simp
  rw [hv, sumFV_replicate_zero]

theorem sumX_one : sumX 1 = 0 := by
  rw [sumX_closed]
  norm_num

theorem lrSlope_single (c : ℚ) : lrSlope [.fin c] = .nan := by
  have h1 : sumXY [FV.fin c] = .fin 0 := by
    simp [sumXY, sumFV, List.range_succ]
  have h2 : sumFV [FV.fin c] = .fin c := by
    simp [sumFV]
  rw [lrSlope, lrNum, h1, h2]
  simp [sumX_one, lsDen_one]

theorem interceptOf_single_fin (c : ℚ) : interceptOf [FV.fin c] = .nan := by
  rw [interceptOf, lrSlope_single]
  simp

theorem lrR2_single (c : ℚ) : (lrSlopeR2 [.fin c]).2 = .nan := by
  have hyp : yPred [FV.fin c] = [.nan] := by
    rw [yPred]
    simp [interceptOf_single_fin, lrSlope_single, List.range_succ]
  have hssr : SSRof [FV.fin c] = .nan := by
    rw [SSRof, hyp]
    simp [sumFV]
  rw [lrSlopeR2]
  simp [hssr]

theorem lrR2_const_ge2 (c : ℚ) {w : ℕ} (hw : 2 ≤ w) :
    (lrSlopeR2 (List.replicate w (.fin c))).2 = .nan := by
  rw [lrSlopeR2, replicate_eq_map_range, SSRof_affine c 0 hw, SSTof_affine c 0 hw]
  norm_num

theorem lrR2_const (c : ℚ) {w : ℕ} (hw : 1 ≤ w) :
    (lrSlopeR2 (List.replicate w (.fin c))).2 = .nan := by
  rcases Nat.lt_or_ge w 2 with h2 | h2
  · have hw1 : w = 1 := by omega
    subst hw1
    rw [List.replicate_one]
    exact lrR2_single _
  · exact lrR2_const_ge2 c h2

theorem window_replicate (c : ℚ) (n s w : ℕ) (h : s + w ≤ n) :
    ((List.replicate n (FV.fin c)).drop s).take w = List.replicate w (FV.fin c) := by
  rw [List.drop_replicate, List.take_replicate]
  congr 1
  omega

theorem sumFV_all_fin {l : List FV} (h : l.all FV.isFin = true) :
    ∃ q, sumFV l = .fin q := by
  suffices haux : ∀ c : ℚ, ∃ q, l.foldl FV.add (.fin c) = .fin q by
    exact haux 0
  induction l with
  | nil => exact fun c => ⟨c, rfl⟩
  | cons v t ih =>
      simp only [List.all_cons, Bool.and_eq_true] at h
      intro c
      cases v with
      | fin a => exact ih h.2 (c + a)
      | nan => exact absurd h.1 (by simp [FV.isFin])
      | pinf => exact absurd h.1 (by simp [FV.isFin])
      | ninf => exact absurd h.1 (by simp [FV.isFin])

theorem rollingMeanVals_length (xs : List FV) (w : ℕ) :
    (rollingMeanVals xs w).length = xs.length := by
  simp [rollingMeanVals]

theorem kamaVals_length (xs : List FV) (l1 l2 l3 : ℕ) :
    (kamaVals xs l1 l2 l3).length = xs.length := by
  simp [kamaVals]

theorem linearSlopeVals_length (xs : List FV) (w : ℕ) :
    (linearSlopeVals xs w).length = xs.length := by
  simp [linearSlopeVals]

theorem linearSlopeR2Slopes_length (xs : List FV) (w : ℕ) :
    (linearSlopeR2Slopes xs w).length = xs.length := by
  simp [linearSlopeR2Slopes]

theorem linearSlopeR2R2s_length (xs : List FV) (w : ℕ) :
    (linearSlopeR2R2s xs w).length = xs.length := by
  simp [linearSlopeR2R2s]

theorem window_length {xs : List FV} {i w : ℕ} (hi : i < xs.length) (hw : w ≤ i + 1) :
    ((xs.drop (i + 1 - w)).take w).length = w := by
  rw [List.length_take, List.length_drop]
  omega

theorem linSeries_length (a b : ℚ) (n : ℕ) : (linSeries a b n).length = n := by
  simp [linSeries]

theorem linSeries_window (a b : ℚ) {n s w : ℕ} (h : s + w ≤ n) :
    ((linSeries a b n).drop s).take w =
      (List.range w).map fun k : ℕ => FV.fin ((a * s + b) + a * k) := by
  apply List.ext_getElem
  · rw [List.length_take, List.length_drop, linSeries_length, List.length_map,
      List.length_range]
    omega
  · intro i h1 h2
    have hi : i < w := by simpa using h2
    rw [List.getElem_take, List.getElem_drop]
    simp only [linSeries, List.getElem_map, List.getElem_range]
    congr 1
    push_cast
    ring

theorem nan_not_mem_fin_map (g : ℕ → ℚ) (l : List ℕ) :
    FV.nan ∉ l.map fun k => FV.fin (g k) := by
  intro hmem
  obtain ⟨k, _, hk⟩ := List.mem_map.mp hmem
  exact FV.noConfusion hk

/-- When the input position is earlier than the efficiency-ratio window
length, the rolling denominator is NaN (insufficient history). -/
theorem erDen_nan_of_lt {xs : List FV} {l1 i : ℕ} (h1 : 1 ≤ l1) (hlt : i < l1) :
    erDen xs l1 i = .nan := by
  unfold erDen
  by_cases hc : i + 1 < l1
  · rw [if_pos hc]
  · have hi1 : i + 1 = l1 := by omega
    have hmem : FV.nan ∈ erDenWindow xs l1 i := by
      have hv0 : volF xs 0 = .nan := by
        unfold volF shiftF
        rw [if_pos (by omega : 0 < 1)]
        simp
      refine List.mem_map.mpr ⟨0, List.mem_range.mpr (by omega), ?_⟩
      have he : i + 1 - l1 + 0 = 0 := by omega
      rw [he, hv0]
    rw [if_neg hc, if_pos hmem]

/-- A NaN anywhere strictly inside the volatility window forces a NaN
rolling denominator. -/
theorem erDen_nan_of_mem {xs : List FV} {l1 i j : ℕ} (hj1 : i + 1 ≤ j + l1)
    (hj2 : j ≤ i) (hnan : getF xs j = .nan) :
    erDen xs l1 i = .nan := by
  unfold erDen
  by_cases hc : i + 1 < l1
  · rw [if_pos hc]
  · have hmem : FV.nan ∈ erDenWindow xs l1 i := by
      have hvj : volF xs j = .nan := by
        unfold volF
        rw [hnan]
        simp
      refine List.mem_map.mpr ⟨j - (i + 1 - l1), List.mem_range.mpr (by omega), ?_⟩
      have he : i + 1 - l1 + (j - (i + 1 - l1)) = j := by omega
      rw [he, hvj]
    rw [if_neg hc, if_pos hmem]

theorem effRatio_of_den_zero {xs : List FV} {l1 i : ℕ} (h1 : 1 ≤ l1)
    (hD : erDen xs l1 i = .fin 0) : effRatio xs l1 i = .fin 0 := by
  obtain ⟨hb, hil, qa, qb, hqa, hqb, hle⟩ := erDen_fin h1 hD
  have hq0 : |qb - qa| = 0 := le_antisymm hle (abs_nonneg _)
  unfold effRatio
  rw [hD]
  have hnum : erNum xs l1 i = .fin 0 := by
    unfold erNum
    rw [shiftF, if_neg (by omega : ¬ i < l1), hqa, hqb]
    simp [hq0]
  rw [hnum]
  simp [fillna0]

theorem effRatio_of_num_nan {xs : List FV} {l1 i : ℕ}
    (hN : erNum xs l1 i = .nan) : effRatio xs l1 i = .fin 0 := by
  unfold effRatio
  rw [hN]
  simp [fillna0]

theorem effRatio_of_den_nan {xs : List FV} {l1 i : ℕ}
    (hD : erDen xs l1 i = .nan) : effRatio xs l1 i = .fin 0 := by
  unfold effRatio
  rw [hD]
  simp [fillna0]

theorem all_isFin_not_mem_nan {l : List FV} (h : l.all FV.isFin = true) :
    FV.nan ∉ l := by
  intro hmem
  have := List.all_eq_true.mp h _ hmem
  simp [FV.isFin] at this

/-- Pointwise description of the rolling mean: NaN before a full window
or when the window has a missing value, otherwise the window sum divided
by the window size. -/
theorem rollingMean_spec (xs : List FV) (w i : ℕ) (hw : 1 ≤ w) (hi : i < xs.length) :
    (w ≤ i + 1 → ((xs.drop (i + 1 - w)).take w).all FV.isFin = true →
       ∃ q, sumFV ((xs.drop (i + 1 - w)).take w) = .fin q ∧
         getF (rollingMeanVals xs w) i = .fin (q / w)) ∧
    (i + 1 < w → getF (rollingMeanVals xs w) i = .nan) ∧
    (FV.nan ∈ (xs.drop (i + 1 - w)).take w → getF (rollingMeanVals xs w) i = .nan) := by
  have hbody := getF_map_range (fun i =>
    if i + 1 < w then FV.nan
    else
      if FV.nan ∈ (xs.drop (i + 1 - w)).take w then FV.nan
      else FV.div (sumFV ((xs.drop (i + 1 - w)).take w))
        (.fin ((((xs.drop (i + 1 - w)).take w).length : ℚ)))) hi
  refine ⟨?_, ?_, ?_⟩
  · intro hfull hall
    obtain ⟨q, hq⟩ := sumFV_all_fin hall
    refine ⟨q, hq, ?_⟩
    simp only [rollingMeanVals]
    simp only [hbody]
    rw [if_neg (by omega : ¬ i + 1 < w), if_neg (all_isFin_not_mem_nan hall), hq,
      window_length hi hfull, FV.div_fin_of_ne _ _ (ne_of_gt (natQ_pos hw))]
  · intro hlt
    simp only [rollingMeanVals]
    simp only [hbody]
    rw [if_pos hlt]
  · intro hmem
    simp only [rollingMeanVals]
    simp only [hbody]
    by_cases hlt : i + 1 < w
    · rw [if_pos hlt]
    · rw [if_neg hlt, if_pos hmem]

/-- Pointwise description of the rolling regression slope on a perfectly
linear input: every full window yields exactly the generating slope. -/
theorem linearSlope_linear (a b : ℚ) {n w i : ℕ} (hw : 2 ≤ w) (hwi : w ≤ i + 1)
    (hin : i < n) :
    getF (linearSlopeVals (linSeries a b n) w) i = .fin a := by
  have hlen : i < (linSeries a b n).length := by rw [linSeries_length]; exact hin
  have hbody := getF_map_range (fun i =>
    if i + 1 < w then FV.nan
    else
      if FV.nan ∈ ((linSeries a b n).drop (i + 1 - w)).take w then FV.nan
      else lrSlope (((linSeries a b n).drop (i + 1 - w)).take w)) hlen
  have hwin := linSeries_window a b (by omega : (i + 1 - w) + w ≤ n)
  simp only [linearSlopeVals]
  simp only [hbody]
  rw [if_neg (by omega : ¬ i + 1 < w), hwin, if_neg (nan_not_mem_fin_map _ _),
    lrSlope_affine _ a hw]

theorem linearSlopeR2_linear (a b : ℚ) {n w i : ℕ} (hw : 2 ≤ w) (hwi : w ≤ i + 1)
    (hin : i < n) :
    getF (linearSlopeR2Slopes (linSeries a b n) w) i = .fin a ∧
    (a ≠ 0 → getF (linearSlopeR2R2s (linSeries a b n) w) i = .fin 1) := by
  have hlen : i < (linSeries a b n).length := by rw [linSeries_length]; exact hin
  have hwin := linSeries_window a b (by omega : (i + 1 - w) + w ≤ n)
  constructor
  · have hbody := getF_map_range (fun i =>
      if i + 1 < w then FV.nan
      else (lrSlopeR2 (((linSeries a b n).drop (i + 1 - w)).take w)).1) hlen
    simp only [linearSlopeR2Slopes]
    simp only [hbody]
    rw [if_neg (by omega : ¬ i + 1 < w), hwin]
    show lrSlope _ = _
    rw [lrSlope_affine _ a hw]
  · intro ha
    have hbody := getF_map_range (fun i =>
      if i + 1 < w then FV.nan
      else (lrSlopeR2 (((linSeries a b n).drop (i + 1 - w)).take w)).2) hlen
    simp only [linearSlopeR2R2s]
    simp only [hbody]
    rw [if_neg (by omega : ¬ i + 1 < w), hwin, lrR2_affine _ a hw ha]

/-- Pointwise description of the rolling R squared on a constant input:
every full window yields NaN. -/
theorem linearSlopeR2_const (c : ℚ) {n w i : ℕ} (hw : 1 ≤ w) (hwi : w ≤ i + 1)
    (hin : i < n) :
    getF (linearSlopeR2R2s (List.replicate n (.fin c)) w) i = .nan := by
  have hlen : i < (List.replicate n (FV.fin c)).length := by
    rw [List.length_replicate]
    exact hin
  have hbody := getF_map_range (fun i =>
    if i + 1 < w then FV.nan
    else (lrSlopeR2 (((List.replicate n (FV.fin c)).drop (i + 1 - w)).take w)).2) hlen
  simp only [linearSlopeR2R2s]
  simp only [hbody]
  rw [if_neg (by omega : ¬ i + 1 < w), window_replicate c n (i + 1 - w) w (by omega),
    lrR2_const c hw]

/-- C1: the specification says that for an input with no missing values
and length at least l1 the first l1-1 kama outputs hold a missing-value
marker.  The code disagrees: because fillna(0) is applied to the whole
efficiency-ratio series before the smoothing constant is formed, the
smoothing constant is never NaN, the isnan branch of the loop is dead,
and the output seeds at position 0 with the raw first input.  On the
input column [1, 2] with l1 = 2 the claim requires output position 0
(the first l1-1 = 1 positions) to be missing, but the code computes the
numeric value 1 there. -/
theorem claim_C1_kama_first_position_numeric :
    getF (kamaVals [.fin 1, .fin 2] 2 2 30) 0 = .fin 1 ∧ FV.fin 1 ≠ FV.nan := by
  constructor
  · have hn : (0 : ℕ) < ([FV.fin 1, FV.fin 2] : List FV).length := by norm_num
    simp only [kamaVals]
    rw [getF_map_range _ hn]
    exact (kamaState_zero_fst [FV.fin 1, FV.fin 2] 2 2 30 (by norm_num)).trans rfl
  · simp

/-- C2: the smoothing constant is defined at every position (so the
first position where it is defined is position 0), the output there is
the raw input value at that position, and every later position follows
the recurrence KAMA i = KAMA (i-1) + sc i * (value i - KAMA (i-1)),
computed by the single forward fold kamaState. -/
theorem claim_C2_kama_seed_and_recurrence (xs : List FV) (l1 l2 l3 : ℕ)
    (h1 : 1 ≤ l1) (hn : 0 < xs.length) :
    (∀ i, scF xs l1 l2 l3 i ≠ .nan) ∧
    getF (kamaVals xs l1 l2 l3) 0 = getF xs 0 ∧
    (∀ i, 1 ≤ i → i < xs.length →
      getF (kamaVals xs l1 l2 l3) i =
        FV.add (getF (kamaVals xs l1 l2 l3) (i - 1))
          (FV.mul (scF xs l1 l2 l3 i)
            (FV.sub (getF xs i) (getF (kamaVals xs l1 l2 l3) (i - 1))))) := by
  refine ⟨fun i => scF_ne_nan xs l1 l2 l3 i h1, ?_, ?_⟩
  · simp only [kamaVals]
    rw [getF_map_range _ hn]
    exact kamaState_zero_fst xs l1 l2 l3 h1
  · intro i hi1 hik
    obtain ⟨j, rfl⟩ : ∃ j, i = j + 1 := ⟨i - 1, by omega⟩
    have hj : j < xs.length := by omega
    simp only [kamaVals, Nat.add_sub_cancel]
    rw [getF_map_range _ hik, getF_map_range _ hj]
    exact kamaState_succ_fst xs l1 l2 l3 h1 j

theorem claim_C2_witness :
    getF (kamaVals [FV.fin 3, FV.fin 4] 1 2 30) 0 = getF [FV.fin 3, FV.fin 4] 0 :=
  (claim_C2_kama_seed_and_recurrence [FV.fin 3, FV.fin 4] 1 2 30 (by norm_num)
    (by norm_num)).2.1

/-- C3: whenever the rolling efficiency-ratio denominator is exactly
zero, or the numerator or denominator is NaN, or a series value feeding
the window is missing, the efficiency ratio is the finite value 0, never
a missing value and never an error. -/
theorem claim_C3_efficiency_ratio_fallback (xs : List FV) (l1 i : ℕ) (h1 : 1 ≤ l1)
    (h : erDen xs l1 i = .fin 0 ∨ erNum xs l1 i = .nan ∨ erDen xs l1 i = .nan ∨
      ∃ j, i ≤ j + l1 ∧ j ≤ i ∧ getF xs j = .nan) :
    effRatio xs l1 i = .fin 0 := by
  rcases h with hD | hN | hD | ⟨j, hj1, hj2, hjn⟩
  · exact effRatio_of_den_zero h1 hD
  · exact effRatio_of_num_nan hN
  · exact effRatio_of_den_nan hD
  · by_cases hij : i < l1
    · exact effRatio_of_den_nan (erDen_nan_of_lt h1 hij)
    · by_cases hj0 : j + l1 = i
      · apply effRatio_of_num_nan
        unfold erNum
        rw [shiftF, if_neg (by omega : ¬ i < l1)]
        have he : i - l1 = j := by omega
        rw [he, hjn]
        simp
      · exact effRatio_of_den_nan (erDen_nan_of_mem (by omega) hj2 hjn)

theorem claim_C3_witness :
    effRatio [FV.fin 5, FV.fin 5] 1 1 = .fin 0 := by
  apply claim_C3_efficiency_ratio_fallback _ _ _ (by norm_num)
  left
  show erDen [FV.fin 5, FV.fin 5] 1 1 = .fin 0
  have hwin : erDenWindow [FV.fin 5, FV.fin 5] 1 1 = [.fin 0] := by
    simp only [erDenWindow, List.range_succ, List.range_zero, List.nil_append,
      List.map_cons, List.map_nil]
    norm_num [volF, getF, shiftF]
  rw [erDen, if_neg (by norm_num), hwin, if_neg (by simp)]
  simp [sumFV]

/-- C4: for a column name absent from the DataFrame, all four functions
fail immediately with an error raised by the column lookup, before any
computation on the data: sma and kama with the module's own ValueError,
linear_slope and linear_slope_and_r2 with the KeyError from the bare
pandas column access. -/
theorem claim_C4_missing_column_errors (df : DataFrame) (col : String)
    (w l1 l2 l3 w2 : ℕ) (h : df.lookup col = none) :
    sma df col w = .error (.valueError col) ∧
    kama df col l1 l2 l3 = .error (.valueError col) ∧
    linear_slope df col w = .error (.keyError col) ∧
    linear_slope_and_r2 df col w2 = .error (.keyError col) := by
  refine ⟨?_, ?_, ?_, ?_⟩ <;> simp [sma, kama, linear_slope, linear_slope_and_r2, h]

theorem claim_C4_witness :
    sma ⟨[], []⟩ "x" 3 = .error (.valueError "x") :=
  (claim_C4_missing_column_errors ⟨[], []⟩ "x" 3 10 2 30 60 rfl).1

/-- C5 counterexample: the claim asserts R squared equals 1 on every
perfectly linear input for every window of size at least 2, but for the
linear input value i = 0 * i + 1 (slope a = 0) with window 2 the window
is constant, SST is 0, and the computed R squared is NaN, not 1. -/
theorem claim_C5_counterexample :
    getF (linearSlopeR2R2s (linSeries 0 1 2) 2) 1 = .nan ∧ FV.nan ≠ .fin 1 := by
  constructor
  · have hrep : linSeries 0 1 2 = List.replicate 2 (.fin 1) := by
      norm_num [linSeries, List.range_succ, List.replicate]
    rw [hrep]
    exact linearSlopeR2_const 1 (by norm_num) (by norm_num) (by norm_num)
  · simp

/-- C5 amended: for a perfectly linear input value i = a * i + b and
every window size w at least 2, every full window's slope equals a
exactly, in both linear_slope and linear_slope_and_r2; and the R squared
of every full window equals 1 provided a is nonzero (for a = 0 the
window is constant and R squared is the NaN of the SST = 0 edge case). -/
theorem claim_C5_amended_linear_windows (a b : ℚ) (n w i : ℕ) (hw : 2 ≤ w)
    (hwi : w ≤ i + 1) (hin : i < n) :
    getF (linearSlopeVals (linSeries a b n) w) i = .fin a ∧
    getF (linearSlopeR2Slopes (linSeries a b n) w) i = .fin a ∧
    (a ≠ 0 → getF (linearSlopeR2R2s (linSeries a b n) w) i = .fin 1) :=
  ⟨linearSlope_linear a b hw hwi hin, (linearSlopeR2_linear a b hw hwi hin).1,
    (linearSlopeR2_linear a b hw hwi hin).2⟩

theorem claim_C5_witness :
    getF (linearSlopeVals (linSeries 1 0 2) 2) 1 = .fin 1 ∧
    getF (linearSlopeR2R2s (linSeries 1 0 2) 2) 1 = .fin 1 := by
  have h := claim_C5_amended_linear_windows 1 0 2 2 1 (by norm_num) (by norm_num)
    (by norm_num)
  exact ⟨h.1, h.2.2 (by norm_num)⟩

/-- C6: the least-squares denominator n * sum x^2 - (sum x)^2 over the
synthetic index 0 .. w-1 is strictly positive for every window size w
at least 2, so the slope division never divides by zero there, while for
w = 1 the denominator is 0 and the slope comes out as the unguarded
0 / 0 result NaN. -/
theorem claim_C6_lsden_positive :
    (∀ w, 2 ≤ w → 0 < lsDen w) ∧ lsDen 1 = 0 ∧ ∀ c : ℚ, lrSlope [.fin c] = .nan :=
  ⟨fun _ hw => lsDen_pos hw, lsDen_one, lrSlope_single⟩

theorem claim_C6_witness : 0 < lsDen 2 ∧ lrSlope [.fin 7] = .nan :=
  ⟨claim_C6_lsden_positive.1 2 (by norm_num), claim_C6_lsden_positive.2.2 7⟩

/-- C7: on a window whose values are all the identical finite value,
SST computes to exactly 0 and the resulting R squared is NaN (the raw
degenerate division result), not a masked 1 or 0; and the
linear_slope_and_r2 wrapper reproduces that NaN at every full-window
position of a constant input series. -/
theorem claim_C7_constant_window_r2 (c : ℚ) (w n i : ℕ) (hw : 1 ≤ w) :
    SSTof (List.replicate w (.fin c)) = .fin 0 ∧
    (lrSlopeR2 (List.replicate w (.fin c))).2 = .nan ∧
    (w ≤ i + 1 → i < n →
      getF (linearSlopeR2R2s (List.replicate n (.fin c)) w) i = .nan) ∧
    FV.nan ≠ .fin 1 ∧ FV.nan ≠ .fin 0 := by
  refine ⟨SSTof_const c hw, lrR2_const c hw,
    fun hwi hin => linearSlopeR2_const c hw hwi hin, by simp, by simp⟩

theorem claim_C7_witness :
    SSTof (List.replicate 2 (FV.fin 5)) = .fin 0 ∧
    (lrSlopeR2 (List.replicate 2 (FV.fin 5))).2 = .nan := by
  have h := claim_C7_constant_window_r2 5 2 2 1 (by norm_num)
  exact ⟨h.1, h.2.1⟩

/-- C8: for a present column whose data is as long as the index, every
function returns successfully with an output carrying exactly the input
index and as many rows as the input. -/
theorem claim_C8_alignment (df : DataFrame) (col : String) (xs : List FV)
    (w l1 l2 l3 w2 : ℕ) (h : df.lookup col = some xs)
    (hlen : xs.length = df.idx.length) :
    (∃ s, sma df col w = .ok s ∧ s.idx = df.idx ∧ s.data.length = df.idx.length) ∧
    (∃ s, kama df col l1 l2 l3 = .ok s ∧ s.idx = df.idx ∧
      s.data.length = df.idx.length) ∧
    (∃ s, linear_slope df col w = .ok s ∧ s.idx = df.idx ∧
      s.data.length = df.idx.length) ∧
    (∃ out, linear_slope_and_r2 df col w2 = .ok out ∧ out.idx = df.idx ∧
      out.cols.length = 2 ∧ ∀ p ∈ out.cols, p.2.length = df.idx.length) := by
  refine ⟨⟨⟨df.idx, "sma_" ++ toString w, rollingMeanVals xs w⟩, ?_, rfl, ?_⟩,
    ⟨⟨df.idx, "kama", kamaVals xs l1 l2 l3⟩, ?_, rfl, ?_⟩,
    ⟨⟨df.idx, "linear_slope_" ++ toString w, linearSlopeVals xs w⟩, ?_, rfl, ?_⟩,
    ⟨⟨df.idx, [("linear_slope_" ++ toString w2, linearSlopeR2Slopes xs w2),
      ("linear_r2_" ++ toString w2, linearSlopeR2R2s xs w2)]⟩, ?_, rfl, rfl, ?_⟩⟩
  · simp [sma, h]
  · rw [rollingMeanVals_length]; exact hlen
  · simp [kama, h]
  · rw [kamaVals_length]; exact hlen
  · simp [linear_slope, h]
  · rw [linearSlopeVals_length]; exact hlen
  · simp [linear_slope_and_r2, h]
  · intro p hp
    simp only [List.mem_cons, List.not_mem_nil, or_false] at hp
    rcases hp with rfl | rfl
    · rw [linearSlopeR2Slopes_length]; exact hlen
    · rw [linearSlopeR2R2s_length]; exact hlen

theorem claim_C8_witness :
    ∃ s, sma ⟨[0], [("c", [FV.fin 1])]⟩ "c" 3 = .ok s ∧
      s.idx = (⟨[0], [("c", [FV.fin 1])]⟩ : DataFrame).idx ∧
      s.data.length = (⟨[0], [("c", [FV.fin 1])]⟩ : DataFrame).idx.length :=
  (claim_C8_alignment ⟨[0], [("c", [FV.fin 1])]⟩ "c" [FV.fin 1] 3 10 2 30 60
    rfl rfl).1

/-- C9: the simple moving average holds, at each position with a full
window of present values, exactly the window sum divided by the window
size (the arithmetic mean of the trailing w positions), and a
missing-value marker at positions lacking a full window or containing a
missing value; concretely on the column 1..10 with window 3 the first
two outputs are missing, the third is 2 and the last is 9. -/
theorem claim_C9_sma_mean :
    (∀ (xs : List FV) (w i : ℕ), 1 ≤ w → i < xs.length →
      ((w ≤ i + 1 → ((xs.drop (i + 1 - w)).take w).all FV.isFin = true →
        ∃ q, sumFV ((xs.drop (i + 1 - w)).take w) = .fin q ∧
          getF (rollingMeanVals xs w) i = .fin (q / w)) ∧
       (i + 1 < w → getF (rollingMeanVals xs w) i = .nan) ∧
       (FV.nan ∈ (xs.drop (i + 1 - w)).take w → getF (rollingMeanVals xs w) i = .nan))) ∧
    (∃ s, sma ⟨[0, 1, 2, 3, 4, 5, 6, 7, 8, 9],
        [("c", [.fin 1, .fin 2, .fin 3, .fin 4, .fin 5, .fin 6, .fin 7, .fin 8,
          .fin 9, .fin 10])]⟩ "c" 3 = .ok s ∧
      getF s.data 0 = .nan ∧ getF s.data 1 = .nan ∧
      getF s.data 2 = .fin 2 ∧ getF s.data 9 = .fin 9) := by
  constructor
  · exact fun xs w i hw hi => rollingMean_spec xs w i hw hi
  · refine ⟨⟨[0, 1, 2, 3, 4, 5, 6, 7, 8, 9], "sma_" ++ toString 3,
      rollingMeanVals [.fin 1, .fin 2, .fin 3, .fin 4, .fin 5, .fin 6, .fin 7, .fin 8,
        .fin 9, .fin 10] 3⟩, rfl, ?_, ?_, ?_, ?_⟩
    · exact (rollingMean_spec _ 3 0 (by norm_num) (by norm_num)).2.1 (by norm_num)
    · exact (rollingMean_spec _ 3 1 (by norm_num) (by norm_num)).2.1 (by norm_num)
    · obtain ⟨q, hq, hout⟩ := (rollingMean_spec [.fin 1, .fin 2, .fin 3, .fin 4, .fin 5,
        .fin 6, .fin 7, .fin 8, .fin 9, .fin 10] 3 2 (by norm_num) (by norm_num)).1
        (by norm_num) (by rfl)
      have hsum : sumFV (([FV.fin 1, .fin 2, .fin 3, .fin 4, .fin 5, .fin 6, .fin 7,
          .fin 8, .fin 9, .fin 10].drop (2 + 1 - 3)).take 3) = .fin 6 := by
        show sumFV [FV.fin 1, FV.fin 2, FV.fin 3] = .fin 6
        simp only [sumFV, List.foldl_cons, List.foldl_nil, FV.add_fin]
        norm_num
      have hq6 : q = 6 := FV.fin.inj (hq.symm.trans hsum)
      rw [hout, hq6]
      norm_num
    · obtain ⟨q, hq, hout⟩ := (rollingMean_spec [.fin 1, .fin 2, .fin 3, .fin 4, .fin 5,
        .fin 6, .fin 7, .fin 8, .fin 9, .fin 10] 3 9 (by norm_num) (by norm_num)).1
        (by norm_num) (by rfl)
      have hsum : sumFV (([FV.fin 1, .fin 2, .fin 3, .fin 4, .fin 5, .fin 6, .fin 7,
          .fin 8, .fin 9, .fin 10].drop (9 + 1 - 3)).take 3) = .fin 27 := by
        show sumFV [FV.fin 8, FV.fin 9, FV.fin 10] = .fin 27
        simp only [sumFV, List.foldl_cons, List.foldl_nil, FV.add_fin]
        norm_num
      have hq27 : q = 27 := FV.fin.inj (hq.symm.trans hsum)
      rw [hout, hq27]
      norm_num

theorem claim_C9_witness :
    getF (rollingMeanVals [FV.fin 1, FV.fin 2] 2) 0 = .nan :=
  (claim_C9_sma_mean.1 [FV.fin 1, FV.fin 2] 2 0 (by norm_num) (by norm_num)).2.1
    (by norm_num)

/-- C10: for parameters 1 <= l2 <= l3 (and a valid ratio window
1 <= l1), at every position of every input the efficiency ratio is a
finite value in the closed interval from 0 to 1, and the smoothing
constant is a finite value between (2/(l3+1))^2 and (2/(l2+1))^2, an
interval contained in the closed interval from 0 to 1. -/
theorem claim_C10_ratio_and_sc_bounds (xs : List FV) (l1 l2 l3 i : ℕ)
    (h1 : 1 ≤ l1) (h2 : 1 ≤ l2) (h23 : l2 ≤ l3) :
    (∃ q, effRatio xs l1 i = .fin q ∧ 0 ≤ q ∧ q ≤ 1) ∧
    (∃ r, scF xs l1 l2 l3 i = .fin r ∧ (2 / ((l3 : ℚ) + 1)) ^ 2 ≤ r ∧
      r ≤ (2 / ((l2 : ℚ) + 1)) ^ 2 ∧ 0 ≤ r ∧ r ≤ 1) := by
  obtain ⟨q, hq, hq0, hq1, hsc⟩ := scF_eval xs l1 l2 l3 i h1
  refine ⟨⟨q, hq, hq0, hq1⟩, ?_⟩
  have hl2q : (1 : ℚ) ≤ (l2 : ℚ) := by exact_mod_cast h2
  have hl23q : ((l2 : ℚ)) ≤ (l3 : ℚ) := by exact_mod_cast h23
  have hp2 : (0 : ℚ) < (l2 : ℚ) + 1 := by linarith
  have hp3 : (0 : ℚ) < (l3 : ℚ) + 1 := by linarith
  have hc2pos : (0 : ℚ) < 2 / ((l3 : ℚ) + 1) := by positivity
  have hc1nonneg : (0 : ℚ) ≤ 2 / ((l2 : ℚ) + 1) - 2 / ((l3 : ℚ) + 1) := by
    have hd : 2 / ((l3 : ℚ) + 1) ≤ 2 / ((l2 : ℚ) + 1) := by
      rw [div_le_div_iff₀ hp3 hp2]
      linarith
    linarith
  have hs_lower : 2 / ((l3 : ℚ) + 1) ≤
      q * (2 / ((l2 : ℚ) + 1) - 2 / ((l3 : ℚ) + 1)) + 2 / ((l3 : ℚ) + 1) := by
    nlinarith [mul_nonneg hq0 hc1nonneg]
  have hs_upper : q * (2 / ((l2 : ℚ) + 1) - 2 / ((l3 : ℚ) + 1)) + 2 / ((l3 : ℚ) + 1) ≤
      2 / ((l2 : ℚ) + 1) := by
    nlinarith [mul_le_of_le_one_left hc1nonneg hq1]
  have hs_nonneg : (0 : ℚ) ≤
      q * (2 / ((l2 : ℚ) + 1) - 2 / ((l3 : ℚ) + 1)) + 2 / ((l3 : ℚ) + 1) :=
    le_trans hc2pos.le hs_lower
  have hle1 : 2 / ((l2 : ℚ) + 1) ≤ 1 := by
    rw [div_le_one hp2]
    linarith
  refine ⟨_, hsc, ?_, ?_, mul_self_nonneg _, ?_⟩
  · rw [pow_two]
    exact mul_self_le_mul_self hc2pos.le hs_lower
  · rw [pow_two]
    exact mul_self_le_mul_self hs_nonneg hs_upper
  · calc (q * (2 / ((l2 : ℚ) + 1) - 2 / ((l3 : ℚ) + 1)) + 2 / ((l3 : ℚ) + 1)) *
        (q * (2 / ((l2 : ℚ) + 1) - 2 / ((l3 : ℚ) + 1)) + 2 / ((l3 : ℚ) + 1)) ≤
        (2 / ((l2 : ℚ) + 1)) * (2 / ((l2 : ℚ) + 1)) :=
          mul_self_le_mul_self hs_nonneg hs_upper
      _ ≤ 1 := mul_le_one₀ hle1 (by positivity) hle1

theorem claim_C10_witness :
    ∃ q, effRatio [FV.fin 1] 1 0 = .fin q ∧ 0 ≤ q ∧ q ≤ 1 :=
  (claim_C10_ratio_and_sc_bounds [FV.fin 1] 1 2 30 0 (by norm_num) (by norm_num)
    (by norm_num)).1
